import Mathlib

/-!
# `gh repo delete`: a shallow embedding of `pkg/cmd/repo/delete/delete.go`

The command resolves a repository selector, asks for a typed confirmation
(unless `--confirm` was given), issues the remote delete call and reports
success on a terminal.

Modelling conventions.

* Go strings are Lean `String`s, that is, valid UTF-8 text: ranging over a
  string yields exactly its code points.
* Go `error` values are the inductive `GoError`; `nil` is `none`.
* The collaborators of `deleteRun` (current-user lookup, interactive prompt,
  remote delete call) are fields of `Env`.  Every call that `deleteRun` makes
  is logged, in program order, in the `trace` of the returned `Outcome`;
  `out` lists the writes that `deleteRun` makes to `opts.IO.Out`.
-/

namespace Delete

/-! ## Errors -/

/-- Go error values as they occur in `delete.go`: `errors.New` and `fmt.Errorf`
without `%w` build an `errorString`, `fmt.Errorf` with `%w` builds a
`wrapError` holding the formatted message and the wrapped cause, and
`cmdutil.FlagError` wraps an error in its `Err` field. -/
inductive GoError where
  | errorString (s : String)
  | wrapError (msg : String) (err : GoError)
  | FlagError (err : GoError)
  deriving DecidableEq, Repr

/-- The `Error()` method: the message of an error. -/
def GoError.Error : GoError → String
  | GoError.errorString s => s
  | GoError.wrapError msg _ => msg
  | GoError.FlagError err => err.Error

/-- Go `errors.New(s)`. -/
def errorsNew (s : String) : GoError := GoError.errorString s

/-- Go `fmt.Errorf(pfx + "%w", err)`: the message is the prefix followed by the
message of `err`, and `err` is kept as the cause. -/
def ErrorfW (pfx : String) (err : GoError) : GoError :=
  GoError.wrapError (pfx ++ err.Error) err

/-- Go `fmt.Errorf(pfx + "%s", s)`. -/
def ErrorfS (pfx : String) (s : String) : GoError :=
  GoError.errorString (pfx ++ s)

/-! ## Strings -/

/-- Go `strings.Contains` on code-point lists: `sub` occurs in the list. -/
def containsRunes (sub : List Char) : List Char → Bool
  | [] => sub.isEmpty
  | c :: cs => sub.isPrefixOf (c :: cs) || containsRunes sub cs

/-- Go `strings.Contains(s, substr)`. -/
def stringsContains (s substr : String) : Bool :=
  containsRunes substr.toList s.toList

/-- One step of the rune loop of Go `strings.EqualFold`: equal runes match;
otherwise the runes are ordered so that `sr < tr`, two ASCII runes match when
`sr` is an upper-case letter and `tr` its lower-case form, and if `tr` is not
ASCII the answer is that of the walk along the `unicode.SimpleFold` orbit of
`sr`, given by `foldOrbit sr tr`. -/
def runeFoldEq (foldOrbit : Char → Char → Bool) (sr tr : Char) : Bool :=
  if tr = sr then true
  else
    let lo := if tr.toNat < sr.toNat then tr else sr
    let hi := if tr.toNat < sr.toNat then sr else tr
    if hi.toNat < 128 then
      decide (65 ≤ lo.toNat ∧ lo.toNat ≤ 90 ∧ hi.toNat = lo.toNat + 32)
    else foldOrbit lo hi

/-- The rune loop of Go `strings.EqualFold`: the runes of `s` are compared one
by one with those of `t`; `t` running out first, or being left over at the
end, gives `false`. -/
def equalFoldRunes (foldOrbit : Char → Char → Bool) : List Char → List Char → Bool
  | [], t => t.isEmpty
  | _ :: _, [] => false
  | sr :: s, tr :: t => runeFoldEq foldOrbit sr tr && equalFoldRunes foldOrbit s t

/-- Go `strings.EqualFold(s, t)`.  The parameter `foldOrbit` stands for the
walk `r := unicode.SimpleFold(sr); for r != sr && r < tr { r = unicode.SimpleFold(r) }; r == tr`
over the Unicode case tables of the Go standard library, which are not part
of this repository. -/
def EqualFold (foldOrbit : Char → Char → Bool) (s t : String) : Bool :=
  equalFoldRunes foldOrbit s.toList t.toList

/-! ## Repository identities (package `ghrepo`) -/

/-- A repository identity: the `owner` and `name` of `ghrepo.Interface`. -/
structure Repo where
  owner : String
  name : String
  deriving DecidableEq, Repr

/-- Cut a code-point list at its first `'/'`: the text before it and the text
after it, or `none` when there is no `'/'`. -/
def cutSlash : List Char → Option (List Char × List Char)
  | [] => none
  | c :: cs =>
    if c = '/' then some ([], cs)
    else
      match cutSlash cs with
      | none => none
      | some p => some (c :: p.1, p.2)

/-- Modelled from the spec: the error of the identity parser, `ghrepo.FromFullName`
(package `internal/ghrepo` is not among the sources), named `InvalidIdentifier`
in the specification; it reports the offending selector. -/
def invalidIdentifier (nwo : String) : GoError :=
  GoError.errorString ("InvalidIdentifier: " ++ nwo)

/-- Modelled from the spec: `ghrepo.FromFullName` (package `internal/ghrepo` is
not among the sources).  "If `S` contains an owner separator, split on the
first occurrence into `(owner, name)`; both sub-parts must be non-empty after
the split, otherwise fail with `InvalidIdentifier`."  A string without a
separator has no owner part and fails as well.  The data model adds the
"invariant: neither field contains a path separator": the owner part, cut at
the first separator, has none, and a name part with a further separator is not
the name of an identity, so no identity with that name is returned. -/
def FromFullName (nwo : String) : Except GoError Repo :=
  match cutSlash nwo.toList with
  | none => Except.error (invalidIdentifier nwo)
  | some p =>
    if p.1.isEmpty || p.2.isEmpty || p.2.contains '/' then
      Except.error (invalidIdentifier nwo)
    else Except.ok (Repo.mk (String.mk p.1) (String.mk p.2))

/-- Modelled from the spec: `ghrepo.FullName` (package `internal/ghrepo` is not
among the sources).  "The canonical string form is `owner/name`." -/
def FullName (r : Repo) : String :=
  r.owner ++ "/" ++ r.name

/-! ## Collaborators and observable behaviour -/

/-- A handle on the HTTP client returned by `opts.HttpClient()`. -/
structure HttpClient where
  handle : Nat
  deriving DecidableEq, Repr

/-- The part of `iostreams.IOStreams` that `delete.go` queries: `CanPrompt()`,
`IsStdoutTTY()` and `ColorScheme().SuccessIcon()`. -/
structure IOStreams where
  CanPrompt : Bool
  IsStdoutTTY : Bool
  SuccessIcon : String

/-- The Go struct `DeleteOptions`.  `HttpClient` is the result the factory
function gives when it is called. -/
structure DeleteOptions where
  HttpClient : Except GoError HttpClient
  Streams : IOStreams
  RepoArg : String
  Confirmed : Bool

/-- The package-level collaborators called by `deleteRun`.
* `foldOrbit`: the Unicode case tables behind `strings.EqualFold`;
* `CurrentLoginName`: `api.CurrentLoginName(apiClient, ghinstance.Default())`;
* `SurveyAskOne`: `prompt.SurveyAskOne` with the message of the `survey.Input`
  and the validator; it returns the error of the prompt, if any;
* `deleteRepo`: the remote delete call `deleteRepo(httpClient, toDelete)`. -/
structure Env where
  foldOrbit : Char → Char → Bool
  CurrentLoginName : HttpClient → Except GoError String
  SurveyAskOne : String → (String → Option GoError) → Option GoError
  deleteRepo : HttpClient → Repo → Option GoError

/-- The calls made by `deleteRun`, as logged in program order.  The prompt and
the delete call are logged together with what they returned. -/
inductive Event where
  | HttpClient
  | CurrentLoginName
  | FromFullName (nwo : String)
  | SurveyAskOne (message : String) (ret : Option GoError)
  | deleteRepo (toDelete : Repo) (ret : Option GoError)
  deriving DecidableEq, Repr

/-- What a run does: the returned error (`none` is `nil`), the calls made, and
the writes to `opts.IO.Out`. -/
structure Outcome where
  err : Option GoError
  trace : List Event
  out : List String
  deriving DecidableEq, Repr

/-! ## `deleteRun` -/

/-- The validator closure passed to `survey.WithValidator` (lines 88-93):
`nil` when the typed string equals `fullName` under `strings.EqualFold`,
otherwise the error `"You entered <str>"`. -/
def confirmValidator (foldOrbit : Char → Char → Bool) (fullName : String)
    (str : String) : Option GoError :=
  if !EqualFold foldOrbit str fullName then some (ErrorfS "You entered " str)
  else none

/-- The prompt message, `fmt.Sprintf("Type %s to confirm deletion:", fullName)`. -/
def promptMessage (fullName : String) : String :=
  "Type " ++ fullName ++ " to confirm deletion:"

/-- The success line, `fmt.Fprintf(opts.IO.Out, "%s Deleted repository %s\n", ...)`. -/
def successLine (icon fullName : String) : String :=
  icon ++ " Deleted repository " ++ fullName ++ "\n"

/-- The Go function `deleteRun` (lines 58-113). -/
def deleteRun (env : Env) (opts : DeleteOptions) : Outcome :=
  match opts.HttpClient with
  | Except.error err => Outcome.mk (some err) [Event.HttpClient] []
  | Except.ok httpClient =>
    let t0 := [Event.HttpClient]
    -- lines 68-74: the owner is looked up when the selector has no separator
    let resolved : Except GoError String × List Event :=
      if !stringsContains opts.RepoArg "/" then
        (match env.CurrentLoginName httpClient with
          | Except.error err => Except.error err
          | Except.ok currentUser => Except.ok (currentUser ++ "/" ++ opts.RepoArg),
         [Event.CurrentLoginName])
      else (Except.ok opts.RepoArg, [])
    match resolved.1 with
    | Except.error err => Outcome.mk (some err) (t0 ++ resolved.2) []
    | Except.ok repoSelector =>
      let t1 := t0 ++ resolved.2 ++ [Event.FromFullName repoSelector]
      match FromFullName repoSelector with
      | Except.error err => Outcome.mk (some (ErrorfW "argument error: " err)) t1 []
      | Except.ok toDelete =>
        let fullName := FullName toDelete
        -- lines 82-97: the confirmation prompt
        let asked : Option GoError × List Event :=
          if !opts.Confirmed then
            let ret := env.SurveyAskOne (promptMessage fullName)
              (confirmValidator env.foldOrbit fullName)
            (ret, [Event.SurveyAskOne (promptMessage fullName) ret])
          else (none, [])
        match asked.1 with
        | some err => Outcome.mk (some (ErrorfW "could not prompt: " err)) (t1 ++ asked.2) []
        | none =>
          let ret := env.deleteRepo httpClient toDelete
          let t2 := t1 ++ asked.2 ++ [Event.deleteRepo toDelete ret]
          match ret with
          | some err => Outcome.mk (some err) t2 []
          | none =>
            Outcome.mk none t2
              (if opts.Streams.IsStdoutTTY then
                [successLine opts.Streams.SuccessIcon fullName]
               else [])

/-- The `RunE` closure of `NewCmdDelete` (lines 41-51).  `opts` carries the
streams and the client factory of the command factory and the value of the
`--confirm` flag; `runF` is `none` for a nil function.  Indexing `args[0]` of
an empty argument list is a run-time panic, modelled by `none`. -/
def RunE (env : Env) (runF : Option (DeleteOptions → Outcome)) (opts : DeleteOptions)
    (args : List String) : Option Outcome :=
  match args with
  | [] => none
  | arg :: _ =>
    let opts1 := DeleteOptions.mk opts.HttpClient opts.Streams arg opts.Confirmed
    if !opts1.Streams.CanPrompt && !opts1.Confirmed then
      some (Outcome.mk
        (some (GoError.FlagError
          (errorsNew "could not prompt: confirmation with prompt or --confirm flag required")))
        [] [])
    else
      match runF with
      | some f => some (f opts1)
      | none => some (deleteRun env opts1)

/-- Whether an event is a remote delete call. -/
def Event.isDeleteRepo : Event → Bool
  | Event.deleteRepo _ _ => true
  | _ => false

/-! ## Sample collaborators, used to run the model on concrete inputs -/

/-- A case table without any non-ASCII case pair. -/
def asciiFold : Char → Char → Bool := fun _ _ => false

/-- A scripted environment: the current-user lookup answers `login`, the user
types `typed` at the prompt and then closes the input, so the prompt returns
`nil` when the validator accepts `typed` and the error `EOF` otherwise, and
the remote delete call answers `del`. -/
def scriptedEnv (login : Except GoError String) (typed : String)
    (del : Option GoError) : Env :=
  Env.mk asciiFold (fun _ => login)
    (fun _ validator =>
      match validator typed with
      | none => none
      | some _ => some (errorsNew "EOF"))
    (fun _ _ => del)

/-- Options with a working client factory. -/
def scriptedOpts (sel : String) (confirmed canPrompt tty : Bool) : DeleteOptions :=
  DeleteOptions.mk (Except.ok (HttpClient.mk 0)) (IOStreams.mk canPrompt tty "✓") sel confirmed

/-- Options whose client factory fails. -/
def noClientOpts (sel : String) (confirmed : Bool) : DeleteOptions :=
  DeleteOptions.mk (Except.error (errorsNew "no client")) (IOStreams.mk true true "✓") sel confirmed

/-! ## The paths through `deleteRun` -/

/-- How lines 65-74 of `deleteRun` arrive at the string `sel` that is parsed:
`pre` lists the calls made so far. -/
def Resolved (env : Env) (opts : DeleteOptions) (c : HttpClient) (pre : List Event)
    (sel : String) : Prop :=
  (stringsContains opts.RepoArg "/" = true ∧ pre = [Event.HttpClient] ∧ sel = opts.RepoArg) ∨
  (stringsContains opts.RepoArg "/" = false ∧ ∃ u, env.CurrentLoginName c = Except.ok u ∧
    pre = [Event.HttpClient, Event.CurrentLoginName] ∧ sel = u ++ "/" ++ opts.RepoArg)

/-- How lines 82-97 of `deleteRun` pass the confirmation gate for `fullName`:
`ask` lists the calls made and `ret` is the error of the prompt. -/
def Asked (env : Env) (opts : DeleteOptions) (fullName : String) (ask : List Event)
    (ret : Option GoError) : Prop :=
  (opts.Confirmed = true ∧ ask = [] ∧ ret = none) ∨
  (opts.Confirmed = false ∧
    ret = env.SurveyAskOne (promptMessage fullName) (confirmValidator env.foldOrbit fullName) ∧
    ask = [Event.SurveyAskOne (promptMessage fullName) ret])

/-! ## Auxiliary lemmas -/

/-- Searching for the one-rune string `"/"` is membership of `'/'`. -/
theorem containsRunes_slash (l : List Char) : containsRunes ['/'] l = true ↔ '/' ∈ l := by
  induction l with
  | nil => simp [containsRunes]
  | cons c cs ih =>
    simp only [containsRunes, Bool.or_eq_true, ih, List.mem_cons]
    constructor
    · rintro (h | h)
      · left
        simp [List.isPrefixOf] at h
        exact h
      · exact Or.inr h
    · rintro (h | h)
      · left
        simp [List.isPrefixOf]
        exact h
      · exact Or.inr h

/-- The test `strings.Contains(s, "/")` is membership of `'/'` in `s`. -/
theorem stringsContains_slash (s : String) : stringsContains s "/" = true ↔ '/' ∈ s.toList := by
  unfold stringsContains
  exact containsRunes_slash s.toList

/-- A list with a `'/'` after a part free of `'/'` is cut at that `'/'`. -/
theorem cutSlash_append (o n : List Char) (h : '/' ∉ o) : cutSlash (o ++ '/' :: n) = some (o, n) := by
  induction o with
  | nil => simp [cutSlash]
  | cons c cs ih =>
    have hc : c ≠ '/' := fun e => h (by simp [e])
    have hcs : '/' ∉ cs := fun e => h (by simp [e])
    simp [cutSlash, hc, ih hcs]

/-- A cut is at the first `'/'`: the list is the two parts around a `'/'`,
and the first part has no `'/'`. -/
theorem cutSlash_some (l o n : List Char) (h : cutSlash l = some (o, n)) : l = o ++ '/' :: n ∧ '/' ∉ o := by
  induction l generalizing o n with
  | nil => simp [cutSlash] at h
  | cons c cs ih =>
    unfold cutSlash at h
    by_cases hc : c = '/'
    · simp [hc] at h
      obtain ⟨rfl, rfl⟩ := h
      simp [hc]
    · simp only [hc, if_false] at h
      cases hcut : cutSlash cs with
      | none => simp [hcut] at h
      | some p =>
        obtain ⟨p1, p2⟩ := p
        simp [hcut] at h
        obtain ⟨rfl, rfl⟩ := h
        obtain ⟨h1, h2⟩ := ih p1 p2 hcut
        refine ⟨by simp [h1], ?_⟩
        simp only [List.mem_cons, not_or]
        exact ⟨fun e => hc e.symm, h2⟩

/-- The rune loop of `strings.EqualFold` only succeeds on lists of the same
length: every step consumes one rune of each. -/
theorem equalFoldRunes_length (f : Char → Char → Bool) (s t : List Char)
    (h : equalFoldRunes f s t = true) : s.length = t.length := by
  induction s generalizing t with
  | nil =>
    cases t with
    | nil => rfl
    | cons a t => simp [equalFoldRunes] at h
  | cons a s ih =>
    cases t with
    | nil => simp [equalFoldRunes] at h
    | cons b t =>
      simp only [equalFoldRunes, Bool.and_eq_true] at h
      simp [ih t h.2]

/-- The parser resolves `owner/name`, with one `'/'` and both parts non-empty,
to that owner and that name. -/
theorem FromFullName_append (owner name : String) (h : '/' ∉ owner.toList)
    (hname : '/' ∉ name.toList) (ho : owner ≠ "") (hn : name ≠ "") :
    FromFullName (owner ++ "/" ++ name) = Except.ok (Repo.mk owner name) := by
  have h1 : (owner ++ "/" ++ name).toList = owner.toList ++ '/' :: name.toList := by
    simp [String.toList]
  unfold FromFullName
  rw [h1, cutSlash_append _ _ h]
  have ho1 : owner.toList ≠ [] := fun e => ho (String.ext e)
  have hn1 : name.toList ≠ [] := fun e => hn (String.ext e)
  simp only [String.toList] at ho1 hn1 hname
  simp [ho1, hn1, hname]

/-- The full name of a parsed identity is the string that was parsed. -/
theorem FullName_of_FromFullName (s : String) (r : Repo) (h : FromFullName s = Except.ok r) :
    FullName r = s := by
  unfold FromFullName at h
  cases hcut : cutSlash s.toList with
  | none => rw [hcut] at h; cases h
  | some p =>
    obtain ⟨o, n⟩ := p
    rw [hcut] at h
    obtain ⟨h1, _⟩ := cutSlash_some _ _ _ hcut
    by_cases hp : (o.isEmpty || n.isEmpty || n.contains '/') = true
    · dsimp only at h
      rw [if_pos hp] at h
      cases h
    · dsimp only at h
      rw [if_neg hp] at h
      cases h
      apply String.ext
      simp only [String.toList] at h1
      simp [FullName, h1]

/-- The runs of `deleteRun`, path by path: every run is one of the early
returns or the final return of the function, with the calls it has made. -/
theorem deleteRun_paths (env : Env) (opts : DeleteOptions) :
    (∃ e, opts.HttpClient = Except.error e ∧
      deleteRun env opts = Outcome.mk (some e) [Event.HttpClient] []) ∨
    (∃ c e, opts.HttpClient = Except.ok c ∧ stringsContains opts.RepoArg "/" = false ∧
      env.CurrentLoginName c = Except.error e ∧
      deleteRun env opts = Outcome.mk (some e) [Event.HttpClient, Event.CurrentLoginName] []) ∨
    (∃ c pre sel, opts.HttpClient = Except.ok c ∧ Resolved env opts c pre sel ∧
      ((∃ e, FromFullName sel = Except.error e ∧
        deleteRun env opts =
          Outcome.mk (some (ErrorfW "argument error: " e)) (pre ++ [Event.FromFullName sel]) []) ∨
       (∃ repo ask ret, FromFullName sel = Except.ok repo ∧
        Asked env opts (FullName repo) ask ret ∧
        ((∃ e, ret = some e ∧
          deleteRun env opts =
            Outcome.mk (some (ErrorfW "could not prompt: " e))
              (pre ++ [Event.FromFullName sel] ++ ask) []) ∨
         (ret = none ∧
          deleteRun env opts =
            Outcome.mk (env.deleteRepo c repo)
              (pre ++ [Event.FromFullName sel] ++ ask ++
                [Event.deleteRepo repo (env.deleteRepo c repo)])
              (if env.deleteRepo c repo = none ∧ opts.Streams.IsStdoutTTY = true then
                [successLine opts.Streams.SuccessIcon (FullName repo)]
               else [])))))) := by
  cases hc : opts.HttpClient with
  | error e => exact Or.inl ⟨e, rfl, by simp [deleteRun, hc]⟩
  | ok c =>
    right
    cases hs : stringsContains opts.RepoArg "/"
    · cases hl : env.CurrentLoginName c with
      | error e => exact Or.inl ⟨c, e, rfl, rfl, hl, by simp [deleteRun, hc, hs, hl]⟩
      | ok u =>
        right
        refine ⟨c, [Event.HttpClient, Event.CurrentLoginName], u ++ "/" ++ opts.RepoArg, rfl,
          Or.inr ⟨hs, u, hl, rfl, rfl⟩, ?_⟩
        cases hp : FromFullName (u ++ "/" ++ opts.RepoArg) with
        | error e => exact Or.inl ⟨e, rfl, by simp [deleteRun, hc, hs, hl, hp]⟩
        | ok repo =>
          right
          cases hconf : opts.Confirmed
          · refine ⟨repo, _, _, rfl, Or.inr ⟨hconf, rfl, rfl⟩, ?_⟩
            cases ha : env.SurveyAskOne (promptMessage (FullName repo))
              (confirmValidator env.foldOrbit (FullName repo)) with
            | some e => exact Or.inl ⟨e, rfl, by simp [deleteRun, hc, hs, hl, hp, hconf, ha]⟩
            | none =>
              refine Or.inr ⟨rfl, ?_⟩
              cases hd : env.deleteRepo c repo <;> simp [deleteRun, hc, hs, hl, hp, hconf, ha, hd]
          · refine ⟨repo, [], none, rfl, Or.inl ⟨hconf, rfl, rfl⟩, Or.inr ⟨rfl, ?_⟩⟩
            cases hd : env.deleteRepo c repo <;> simp [deleteRun, hc, hs, hl, hp, hconf, hd]
    · right
      refine ⟨c, [Event.HttpClient], opts.RepoArg, rfl, Or.inl ⟨hs, rfl, rfl⟩, ?_⟩
      cases hp : FromFullName opts.RepoArg with
      | error e => exact Or.inl ⟨e, rfl, by simp [deleteRun, hc, hs, hp]⟩
      | ok repo =>
        right
        cases hconf : opts.Confirmed
        · refine ⟨repo, _, _, rfl, Or.inr ⟨hconf, rfl, rfl⟩, ?_⟩
          cases ha : env.SurveyAskOne (promptMessage (FullName repo))
            (confirmValidator env.foldOrbit (FullName repo)) with
          | some e => exact Or.inl ⟨e, rfl, by simp [deleteRun, hc, hs, hp, hconf, ha]⟩
          | none =>
            refine Or.inr ⟨rfl, ?_⟩
            cases hd : env.deleteRepo c repo <;> simp [deleteRun, hc, hs, hp, hconf, ha, hd]
        · refine ⟨repo, [], none, rfl, Or.inl ⟨hconf, rfl, rfl⟩, Or.inr ⟨rfl, ?_⟩⟩
          cases hd : env.deleteRepo c repo <;> simp [deleteRun, hc, hs, hp, hconf, hd]


/-- The calls made before the parser is reached are the client factory and, at
most, the current-user lookup. -/
theorem Resolved_pre {env : Env} {opts : DeleteOptions} {c : HttpClient} {pre : List Event}
    {sel : String} (h : Resolved env opts c pre sel) :
    pre = [Event.HttpClient] ∨ pre = [Event.HttpClient, Event.CurrentLoginName] := by
  rcases h with ⟨_, h, _⟩ | ⟨_, _, _, h, _⟩
  · exact Or.inl h
  · exact Or.inr h

/-! ## The claims -/

/-- C1: in a run of `deleteRun` with `opts.Confirmed = false`, a remote delete
call is only made right after the prompt has returned without error; the prompt
is the call of the collaborator with the message and the validator for the
resolved full name; and when the prompt returns an error `e`, the run returns
the error wrapping `e` with the message prefix `"could not prompt: "` and makes
no delete call. -/
theorem deleteRun_prompt_precedes_delete (env : Env) (opts : DeleteOptions)
    (hconf : opts.Confirmed = false) :
    (∀ repo ret, Event.deleteRepo repo ret ∈ (deleteRun env opts).trace →
      ∃ msg, [Event.SurveyAskOne msg none, Event.deleteRepo repo ret] <:+
        (deleteRun env opts).trace) ∧
    (∀ msg ret, Event.SurveyAskOne msg ret ∈ (deleteRun env opts).trace →
      ∃ repo, msg = promptMessage (FullName repo) ∧
        ret = env.SurveyAskOne msg (confirmValidator env.foldOrbit (FullName repo))) ∧
    (∀ msg e, Event.SurveyAskOne msg (some e) ∈ (deleteRun env opts).trace →
      (deleteRun env opts).err = some (GoError.wrapError ("could not prompt: " ++ e.Error) e) ∧
      ∀ repo ret, Event.deleteRepo repo ret ∉ (deleteRun env opts).trace) := by
  rcases deleteRun_paths env opts with ⟨e, _, hr⟩ | ⟨c, e, _, _, _, hr⟩ |
    ⟨c, pre, sel, _, hres, hrest⟩
  · rw [hr]; simp
  · rw [hr]; simp
  · have hpre := Resolved_pre hres
    rcases hrest with ⟨e, _, hr⟩ | ⟨repo, ask, ret, _, hask, hrest⟩
    · rw [hr]
      rcases hpre with h | h <;> subst h <;> simp
    · rcases hask with ⟨h, _, _⟩ | ⟨_, hret, hask⟩
      · rw [hconf] at h; cases h
      · subst hask
        rcases hrest with ⟨e, he, hr⟩ | ⟨hnone, hr⟩
        · rw [hr]
          rcases hpre with h | h <;> subst h <;> simp [ErrorfW, he] <;>
            exact ⟨repo, rfl, he.symm.trans hret⟩
        · rw [hr]
          rcases hpre with h | h <;> subst h <;> simp [hnone]
          · exact ⟨⟨_, [Event.HttpClient, Event.FromFullName sel], rfl⟩, repo, rfl,
              hnone.symm.trans hret⟩
          · exact ⟨⟨_, [Event.HttpClient, Event.CurrentLoginName, Event.FromFullName sel], rfl⟩,
              repo, rfl, hnone.symm.trans hret⟩

/-- Witness of C1: the user mistypes the name and closes the input, so the
prompt fails with `EOF`. -/
theorem deleteRun_prompt_precedes_delete_witness :
    (scriptedOpts "myrepo" false true true).Confirmed = false ∧
    (deleteRun (scriptedEnv (Except.ok "alice") "alice/myrep" none)
      (scriptedOpts "myrepo" false true true)).err =
      some (GoError.wrapError "could not prompt: EOF" (GoError.errorString "EOF")) ∧
    ∃ msg, [Event.SurveyAskOne msg none,
        Event.deleteRepo (Repo.mk "alice" "myrepo") none] <:+
      (deleteRun (scriptedEnv (Except.ok "alice") "Alice/MyRepo" none)
        (scriptedOpts "myrepo" false true true)).trace :=
  ⟨rfl,
   ((deleteRun_prompt_precedes_delete (scriptedEnv (Except.ok "alice") "alice/myrep" none)
      (scriptedOpts "myrepo" false true true) rfl).2.2
      "Type alice/myrepo to confirm deletion:" (GoError.errorString "EOF") (by decide)).1,
   (deleteRun_prompt_precedes_delete (scriptedEnv (Except.ok "alice") "Alice/MyRepo" none)
      (scriptedOpts "myrepo" false true true) rfl).1
      (Repo.mk "alice" "myrepo") none (by decide)⟩

/-- C4: in a run of `deleteRun` with `opts.Confirmed = true` no prompt is
issued, for every selector and every terminal state; and once the parser has
resolved the identity, the next and last call is the remote delete call for
that identity. -/
theorem deleteRun_confirmed_skips_prompt (env : Env) (opts : DeleteOptions)
    (hconf : opts.Confirmed = true) :
    (∀ msg ret, Event.SurveyAskOne msg ret ∉ (deleteRun env opts).trace) ∧
    (∀ sel repo, Event.FromFullName sel ∈ (deleteRun env opts).trace →
      FromFullName sel = Except.ok repo →
      ∃ c, opts.HttpClient = Except.ok c ∧
        [Event.FromFullName sel, Event.deleteRepo repo (env.deleteRepo c repo)] <:+
          (deleteRun env opts).trace) := by
  rcases deleteRun_paths env opts with ⟨e, _, hr⟩ | ⟨c, e, _, _, _, hr⟩ |
    ⟨c, pre, sel, hc, hres, hrest⟩
  · rw [hr]; simp
  · rw [hr]; simp
  · have hpre := Resolved_pre hres
    rcases hrest with ⟨e, hp, hr⟩ | ⟨repo, ask, ret, hp, hask, hrest⟩
    · rw [hr]
      rcases hpre with h | h <;> subst h <;> simp <;> intro s1 r1 hs1 h <;> subst hs1 <;>
        rw [hp] at h <;> cases h
    · rcases hask with ⟨_, hask, hret⟩ | ⟨h, _, _⟩
      · subst hask
        subst hret
        rcases hrest with ⟨e, he, _⟩ | ⟨_, hr⟩
        · cases he
        · rw [hr]
          rcases hpre with h | h <;> subst h <;> simp <;> intro s1 r1 hs1 h <;> subst hs1 <;>
            rw [hp] at h <;> cases h <;> refine ⟨c, hc, ?_⟩
          · exact ⟨[Event.HttpClient], rfl⟩
          · exact ⟨[Event.HttpClient, Event.CurrentLoginName], rfl⟩
      · rw [hconf] at h; cases h

/-- Witness of C4: a confirmed run on an interactive terminal goes from the
parser straight to the delete call. -/
theorem deleteRun_confirmed_skips_prompt_witness :
    (scriptedOpts "bob/proj" true true true).Confirmed = true ∧
    (deleteRun (scriptedEnv (Except.ok "alice") "" none)
      (scriptedOpts "bob/proj" true true true)).trace =
      [Event.HttpClient, Event.FromFullName "bob/proj",
        Event.deleteRepo (Repo.mk "bob" "proj") none] ∧
    Event.SurveyAskOne "Type bob/proj to confirm deletion:" none ∉
      (deleteRun (scriptedEnv (Except.ok "alice") "" none)
        (scriptedOpts "bob/proj" true true true)).trace :=
  ⟨rfl, by decide,
   (deleteRun_confirmed_skips_prompt (scriptedEnv (Except.ok "alice") "" none)
      (scriptedOpts "bob/proj" true true true) rfl).1 _ _⟩

/-- A run that reaches line 99: with a client, the selector resolved to `sel`,
`sel` parsed to `repo` and the confirmation gate passed, the run makes the
remote delete call for `repo`, returns what the call returns, and writes the
success line when the call returned `nil` and stdout is a terminal. -/
theorem deleteRun_of_delete_reached (env : Env) (opts : DeleteOptions) (c : HttpClient)
    (pre : List Event) (sel : String) (repo : Repo) (ask : List Event)
    (hc : opts.HttpClient = Except.ok c) (hres : Resolved env opts c pre sel)
    (hp : FromFullName sel = Except.ok repo)
    (hask : Asked env opts (FullName repo) ask none) :
    deleteRun env opts =
      Outcome.mk (env.deleteRepo c repo)
        (pre ++ [Event.FromFullName sel] ++ ask ++
          [Event.deleteRepo repo (env.deleteRepo c repo)])
        (if env.deleteRepo c repo = none ∧ opts.Streams.IsStdoutTTY = true then
          [successLine opts.Streams.SuccessIcon (FullName repo)]
         else []) := by
  rcases hres with ⟨hs, hpre, hsel⟩ | ⟨hs, u, hl, hpre, hsel⟩
  · subst hpre
    subst hsel
    rcases hask with ⟨hcf, hask, _⟩ | ⟨hcf, ha, hask⟩
    · subst hask
      cases hd : env.deleteRepo c repo <;> simp [deleteRun, hc, hs, hp, hcf, hd]
    · subst hask
      cases hd : env.deleteRepo c repo <;> simp [deleteRun, hc, hs, hp, hcf, ← ha, hd]
  · subst hpre
    subst hsel
    rcases hask with ⟨hcf, hask, _⟩ | ⟨hcf, ha, hask⟩
    · subst hask
      cases hd : env.deleteRepo c repo <;> simp [deleteRun, hc, hs, hl, hp, hcf, hd]
    · subst hask
      cases hd : env.deleteRepo c repo <;> simp [deleteRun, hc, hs, hl, hp, hcf, ← ha, hd]

/-- The log is faithful on delete calls: a logged delete call for `repo` was
made with the client of the run, for the identity parsed from the resolved
selector, after the confirmation gate was passed, and the logged result is the
answer of the collaborator. -/
theorem deleteRun_delete_logged (env : Env) (opts : DeleteOptions) (repo : Repo)
    (ret : Option GoError) (h : Event.deleteRepo repo ret ∈ (deleteRun env opts).trace) :
    ∃ c pre sel ask, opts.HttpClient = Except.ok c ∧ Resolved env opts c pre sel ∧
      FromFullName sel = Except.ok repo ∧ Asked env opts (FullName repo) ask none ∧
      ret = env.deleteRepo c repo := by
  rcases deleteRun_paths env opts with ⟨e1, _, hr⟩ | ⟨c, e1, _, _, _, hr⟩ |
    ⟨c, pre, sel, hc, hres, hrest⟩
  · rw [hr] at h; simp at h
  · rw [hr] at h; simp at h
  · have hpre := Resolved_pre hres
    rcases hrest with ⟨e1, _, hr⟩ | ⟨repo1, ask, ret1, hp, hask, ⟨e1, _, hr⟩ | ⟨hnone, hr⟩⟩
    · rw [hr] at h
      rcases hpre with h1 | h1 <;> subst h1 <;> simp at h
    · rw [hr] at h
      rcases hask with ⟨_, hask1, _⟩ | ⟨_, _, hask1⟩ <;> subst hask1 <;>
        rcases hpre with h1 | h1 <;> subst h1 <;> simp at h
    · subst hnone
      have hmem : repo = repo1 ∧ ret = env.deleteRepo c repo1 := by
        rw [hr] at h
        rcases hask with ⟨_, hask1, _⟩ | ⟨_, _, hask1⟩ <;> subst hask1 <;>
          rcases hpre with h1 | h1 <;> subst h1 <;> simp at h <;> exact h
      obtain ⟨h1, h2⟩ := hmem
      subst h1
      exact ⟨c, pre, sel, ask, hc, hres, hp, hask, h2⟩

/-- A run makes at most one remote delete call, the last call of the run. -/
theorem deleteRun_delete_count (env : Env) (opts : DeleteOptions) (repo : Repo)
    (ret : Option GoError) (h : Event.deleteRepo repo ret ∈ (deleteRun env opts).trace) :
    (deleteRun env opts).trace.filter Event.isDeleteRepo = [Event.deleteRepo repo ret] := by
  obtain ⟨c, pre, sel, ask, hc, hres, hp, hask, hret⟩ := deleteRun_delete_logged env opts repo ret h
  rw [deleteRun_of_delete_reached env opts c pre sel repo ask hc hres hp hask, hret]
  rcases hask with ⟨_, hask1, _⟩ | ⟨_, _, hask1⟩ <;> subst hask1 <;>
    rcases Resolved_pre hres with h1 | h1 <;> subst h1 <;> simp [Event.isDeleteRepo]

/-- C7: when the remote delete call of a run returns an error `e`, `deleteRun`
returns exactly `e`, writes nothing to the output stream whether or not stdout
is a terminal, and makes exactly one delete call.  In terms of the
collaborators: whenever the run has a client, the selector is resolved and
parsed to `repo`, the confirmation gate is passed and the collaborator
`deleteRepo` answers `e` for `repo`, the run is: return `e`, one delete call as
the last call, no output.  Every delete call in the log of a run is such a
call, logged with the answer of the collaborator. -/
theorem deleteRun_delete_error (env : Env) (opts : DeleteOptions) (repo : Repo) (e : GoError) :
    (∀ c pre sel ask, opts.HttpClient = Except.ok c → Resolved env opts c pre sel →
      FromFullName sel = Except.ok repo → Asked env opts (FullName repo) ask none →
      env.deleteRepo c repo = some e →
      deleteRun env opts =
        Outcome.mk (some e)
          (pre ++ [Event.FromFullName sel] ++ ask ++ [Event.deleteRepo repo (some e)]) []) ∧
    (∀ r ret, Event.deleteRepo r ret ∈ (deleteRun env opts).trace →
      ∃ c pre sel ask, opts.HttpClient = Except.ok c ∧ Resolved env opts c pre sel ∧
        FromFullName sel = Except.ok r ∧ Asked env opts (FullName r) ask none ∧
        ret = env.deleteRepo c r) ∧
    (Event.deleteRepo repo (some e) ∈ (deleteRun env opts).trace →
      (deleteRun env opts).err = some e ∧
      (deleteRun env opts).out = [] ∧
      ((deleteRun env opts).trace.filter Event.isDeleteRepo).length = 1 ∧
      ∃ c, opts.HttpClient = Except.ok c ∧ env.deleteRepo c repo = some e) := by
  refine ⟨?_, fun r ret h => deleteRun_delete_logged env opts r ret h, ?_⟩
  · intro c pre sel ask hc hres hp hask hd
    rw [deleteRun_of_delete_reached env opts c pre sel repo ask hc hres hp hask, hd]
    simp
  · intro h
    have hcount := deleteRun_delete_count env opts repo (some e) h
    obtain ⟨c, pre, sel, ask, hc, hres, hp, hask, hret⟩ :=
      deleteRun_delete_logged env opts repo (some e) h
    rw [hcount]
    rw [deleteRun_of_delete_reached env opts c pre sel repo ask hc hres hp hask, ← hret]
    exact ⟨rfl, by simp, rfl, c, hc, hret.symm⟩

/-- Witness of C7: the user confirms `bob/proj` at the prompt and the remote
side answers with a permission error. -/
theorem deleteRun_delete_error_witness :
    deleteRun (scriptedEnv (Except.ok "alice") "bob/proj" (some (GoError.errorString "HTTP 403")))
        (scriptedOpts "bob/proj" false true true) =
      Outcome.mk (some (GoError.errorString "HTTP 403"))
        [Event.HttpClient, Event.FromFullName "bob/proj",
          Event.SurveyAskOne "Type bob/proj to confirm deletion:" none,
          Event.deleteRepo (Repo.mk "bob" "proj") (some (GoError.errorString "HTTP 403"))]
        [] ∧
    ((deleteRun
        (scriptedEnv (Except.ok "alice") "" (some (GoError.errorString "HTTP 403")))
        (scriptedOpts "bob/proj" true true true)).trace.filter Event.isDeleteRepo).length = 1 :=
  ⟨(deleteRun_delete_error
      (scriptedEnv (Except.ok "alice") "bob/proj" (some (GoError.errorString "HTTP 403")))
      (scriptedOpts "bob/proj" false true true) (Repo.mk "bob" "proj")
      (GoError.errorString "HTTP 403")).1 (HttpClient.mk 0) [Event.HttpClient] "bob/proj"
      [Event.SurveyAskOne "Type bob/proj to confirm deletion:" none] rfl
      (Or.inl ⟨by decide, rfl, rfl⟩) rfl (Or.inr ⟨rfl, rfl, rfl⟩) rfl,
   ((deleteRun_delete_error
      (scriptedEnv (Except.ok "alice") "" (some (GoError.errorString "HTTP 403")))
      (scriptedOpts "bob/proj" true true true) (Repo.mk "bob" "proj")
      (GoError.errorString "HTTP 403")).2.2 (by decide)).2.2.1⟩

/-- C8: when the remote delete call of a run succeeds, `deleteRun` returns
`nil`, and what it writes to the output stream is the single line
`"<success icon> Deleted repository <owner/name>\n"` for the identity that was
deleted when `opts.IO.IsStdoutTTY()` is true, and nothing when it is false.  In
terms of the collaborators: whenever the run has a client, the selector is
resolved and parsed to `repo`, the confirmation gate is passed and the
collaborator `deleteRepo` answers `nil` for `repo`, the run is: return `nil`,
one delete call for `repo` as the last call, and that output.  Every
successful delete call in the log of a run is such a call. -/
theorem deleteRun_delete_success (env : Env) (opts : DeleteOptions) (repo : Repo) :
    (∀ c pre sel ask, opts.HttpClient = Except.ok c → Resolved env opts c pre sel →
      FromFullName sel = Except.ok repo → Asked env opts (FullName repo) ask none →
      env.deleteRepo c repo = none →
      deleteRun env opts =
        Outcome.mk none
          (pre ++ [Event.FromFullName sel] ++ ask ++ [Event.deleteRepo repo none])
          (if opts.Streams.IsStdoutTTY = true then
            [opts.Streams.SuccessIcon ++ " Deleted repository " ++ FullName repo ++ "\n"]
           else [])) ∧
    (Event.deleteRepo repo none ∈ (deleteRun env opts).trace →
      (∃ c pre sel ask, opts.HttpClient = Except.ok c ∧ Resolved env opts c pre sel ∧
        FromFullName sel = Except.ok repo ∧ Asked env opts (FullName repo) ask none ∧
        env.deleteRepo c repo = none) ∧
      (deleteRun env opts).err = none ∧
      (opts.Streams.IsStdoutTTY = true →
        (deleteRun env opts).out =
          [opts.Streams.SuccessIcon ++ " Deleted repository " ++ FullName repo ++ "\n"]) ∧
      (opts.Streams.IsStdoutTTY = false → (deleteRun env opts).out = [])) := by
  have hreach : ∀ c pre sel ask, opts.HttpClient = Except.ok c → Resolved env opts c pre sel →
      FromFullName sel = Except.ok repo → Asked env opts (FullName repo) ask none →
      env.deleteRepo c repo = none →
      deleteRun env opts =
        Outcome.mk none
          (pre ++ [Event.FromFullName sel] ++ ask ++ [Event.deleteRepo repo none])
          (if opts.Streams.IsStdoutTTY = true then
            [opts.Streams.SuccessIcon ++ " Deleted repository " ++ FullName repo ++ "\n"]
           else []) := by
    intro c pre sel ask hc hres hp hask hd
    rw [deleteRun_of_delete_reached env opts c pre sel repo ask hc hres hp hask, hd]
    simp [successLine]
  refine ⟨hreach, ?_⟩
  intro h
  obtain ⟨c, pre, sel, ask, hc, hres, hp, hask, hret⟩ :=
    deleteRun_delete_logged env opts repo none h
  rw [hreach c pre sel ask hc hres hp hask hret.symm]
  refine ⟨⟨c, pre, sel, ask, hc, hres, hp, hask, hret.symm⟩, rfl, ?_, ?_⟩
  · intro htty
    simp [htty]
  · intro htty
    simp [htty]

/-- Witness of C8: the user confirms `bob/proj` at the prompt, the remote delete
succeeds and the terminal shows one success line; the same run through a pipe
with `--confirm` prints nothing. -/
theorem deleteRun_delete_success_witness :
    deleteRun (scriptedEnv (Except.ok "alice") "bob/proj" none)
        (scriptedOpts "bob/proj" false true true) =
      Outcome.mk none
        [Event.HttpClient, Event.FromFullName "bob/proj",
          Event.SurveyAskOne "Type bob/proj to confirm deletion:" none,
          Event.deleteRepo (Repo.mk "bob" "proj") none]
        ["✓ Deleted repository bob/proj\n"] ∧
    (deleteRun (scriptedEnv (Except.ok "alice") "" none)
        (scriptedOpts "bob/proj" true false false)).out = [] :=
  ⟨(deleteRun_delete_success (scriptedEnv (Except.ok "alice") "bob/proj" none)
      (scriptedOpts "bob/proj" false true true) (Repo.mk "bob" "proj")).1
      (HttpClient.mk 0) [Event.HttpClient] "bob/proj"
      [Event.SurveyAskOne "Type bob/proj to confirm deletion:" none] rfl
      (Or.inl ⟨by decide, rfl, rfl⟩) rfl (Or.inr ⟨rfl, rfl, rfl⟩) rfl,
   ((deleteRun_delete_success (scriptedEnv (Except.ok "alice") "" none)
      (scriptedOpts "bob/proj" true false false) (Repo.mk "bob" "proj")).2
      (by decide)).2.2.2 rfl⟩

/-- C2: for `RunE` with the one argument `arg`: when `opts.IO.CanPrompt()` and
`opts.Confirmed` are both false the result is the `FlagError` with the message
`"could not prompt: confirmation with prompt or --confirm flag required"`,
whatever `runF` is, and no call is made (the trace is empty); in every other
case the result is that of `runF` on the options with `RepoArg` set to `arg`
when `runF` is non-nil, and that of `deleteRun` on these options otherwise. -/
theorem RunE_guard (env : Env) (runF : Option (DeleteOptions → Outcome))
    (opts : DeleteOptions) (arg : String) :
    (opts.Streams.CanPrompt = false → opts.Confirmed = false →
      (∃ flagErr, RunE env runF opts [arg] =
          some (Outcome.mk (some (GoError.FlagError flagErr)) [] []) ∧
        (GoError.FlagError flagErr).Error =
          "could not prompt: confirmation with prompt or --confirm flag required")) ∧
    (¬ (opts.Streams.CanPrompt = false ∧ opts.Confirmed = false) →
      ∀ f, runF = some f →
        RunE env runF opts [arg] =
          some (f (DeleteOptions.mk opts.HttpClient opts.Streams arg opts.Confirmed))) ∧
    (¬ (opts.Streams.CanPrompt = false ∧ opts.Confirmed = false) →
      runF = none →
        RunE env runF opts [arg] =
          some (deleteRun env (DeleteOptions.mk opts.HttpClient opts.Streams arg opts.Confirmed))) := by
  refine ⟨?_, ?_, ?_⟩
  · intro h1 h2
    exact ⟨errorsNew "could not prompt: confirmation with prompt or --confirm flag required",
      by simp [RunE, h1, h2], rfl⟩
  · intro h f hf
    subst hf
    cases h1 : opts.Streams.CanPrompt <;> cases h2 : opts.Confirmed <;>
      simp [RunE, h1, h2] at h ⊢
  · intro h hf
    subst hf
    cases h1 : opts.Streams.CanPrompt <;> cases h2 : opts.Confirmed <;>
      simp [RunE, h1, h2] at h ⊢

/-- Witness of C2: without a terminal and without `--confirm` the guard fires
even though a `runF` is present; with `--confirm` the options reach `runF`, or
`deleteRun` when `runF` is nil. -/
theorem RunE_guard_witness :
    (∃ flagErr,
      RunE (scriptedEnv (Except.ok "alice") "" none)
        (some (fun o => Outcome.mk none [Event.FromFullName o.RepoArg] []))
        (scriptedOpts "" false false false) ["bob/proj"] =
          some (Outcome.mk (some (GoError.FlagError flagErr)) [] []) ∧
      (GoError.FlagError flagErr).Error =
        "could not prompt: confirmation with prompt or --confirm flag required") ∧
    RunE (scriptedEnv (Except.ok "alice") "" none)
      (some (fun o => Outcome.mk none [Event.FromFullName o.RepoArg] []))
      (scriptedOpts "" true false false) ["bob/proj"] =
        some (Outcome.mk none [Event.FromFullName "bob/proj"] []) ∧
    RunE (scriptedEnv (Except.ok "alice") "" none) none
      (scriptedOpts "" true false false) ["bob/proj"] =
        some (deleteRun (scriptedEnv (Except.ok "alice") "" none)
          (scriptedOpts "bob/proj" true false false)) :=
  ⟨(RunE_guard _ _ (scriptedOpts "" false false false) "bob/proj").1 rfl rfl,
   (RunE_guard (scriptedEnv (Except.ok "alice") "" none)
      (some (fun o => Outcome.mk none [Event.FromFullName o.RepoArg] []))
      (scriptedOpts "" true false false) "bob/proj").2.1 (by decide) _ rfl,
   (RunE_guard (scriptedEnv (Except.ok "alice") "" none) none
      (scriptedOpts "" true false false) "bob/proj").2.2 (by decide) rfl⟩

/-- The rune loop of `strings.EqualFold` fails on strings of different
length. -/
theorem EqualFold_false_of_length (f : Char → Char → Bool) (s t : String)
    (h : s.toList.length ≠ t.toList.length) : EqualFold f s t = false := by
  cases hE : EqualFold f s t with
  | false => rfl
  | true => exact absurd (equalFoldRunes_length f _ _ hE) h

/-- A non-empty string has a positive number of runes. -/
theorem String_length_pos (q : String) (hq : q ≠ "") : 0 < q.toList.length := by
  cases hl : q.toList with
  | nil => exact absurd (String.ext hl) hq
  | cons a l => simp

/-- C3: the confirmation validator returns `nil` exactly when the typed string
equals the expected full name under `strings.EqualFold`; a rejection returns
the error `"You entered <str>"` with the typed string unchanged; `Owner/Repo`
confirms `owner/repo`; and for a non-empty `q`, a proper prefix `p` of the
expected name `p ++ q`, a proper suffix `p` of the expected name `q ++ p`, and
the extensions `p ++ q` and `q ++ p` of the expected name `p` are rejected. -/
theorem confirmValidator_accepts_iff_equalFold (foldOrbit : Char → Char → Bool)
    (fullName str p q : String) :
    (confirmValidator foldOrbit fullName str = none ↔
      EqualFold foldOrbit str fullName = true) ∧
    (EqualFold foldOrbit str fullName = false →
      confirmValidator foldOrbit fullName str =
        some (GoError.errorString ("You entered " ++ str))) ∧
    confirmValidator foldOrbit "owner/repo" "Owner/Repo" = none ∧
    (q ≠ "" →
      confirmValidator foldOrbit (p ++ q) p = some (GoError.errorString ("You entered " ++ p)) ∧
      confirmValidator foldOrbit (q ++ p) p = some (GoError.errorString ("You entered " ++ p)) ∧
      confirmValidator foldOrbit p (p ++ q) =
        some (GoError.errorString ("You entered " ++ (p ++ q))) ∧
      confirmValidator foldOrbit p (q ++ p) =
        some (GoError.errorString ("You entered " ++ (q ++ p)))) := by
  have hrej : ∀ a b : String, EqualFold foldOrbit a b = false →
      confirmValidator foldOrbit b a = some (GoError.errorString ("You entered " ++ a)) := by
    intro a b h
    simp [confirmValidator, h, ErrorfS]
  refine ⟨?_, hrej str fullName, ?_, ?_⟩
  · cases h : EqualFold foldOrbit str fullName <;> simp [confirmValidator, h]
  · rfl
  · intro hq
    have hpos := String_length_pos q hq
    refine ⟨hrej _ _ ?_, hrej _ _ ?_, hrej _ _ ?_, hrej _ _ ?_⟩ <;>
      apply EqualFold_false_of_length <;> simp [String.toList] at hpos ⊢ <;> omega

/-- Witness of C3: for the expected name `owner/repo`, the prefix `owner`, the
suffix `repo` and the extensions `owner/repo2` and `my/owner/repo` are
rejected with the typed text echoed. -/
theorem confirmValidator_accepts_iff_equalFold_witness :
    "/repo" ≠ "" ∧
    confirmValidator asciiFold "owner/repo" "owner" =
      some (GoError.errorString "You entered owner") ∧
    confirmValidator asciiFold "owner/repo" "OWNER/REPO" = none ∧
    confirmValidator asciiFold "owner/repo" "owner/rep0" =
      some (GoError.errorString "You entered owner/rep0") :=
  ⟨by decide,
   ((confirmValidator_accepts_iff_equalFold asciiFold "" "" "owner" "/repo").2.2.2
      (by decide)).1,
   (confirmValidator_accepts_iff_equalFold asciiFold "owner/repo" "OWNER/REPO" "" "").1.2
      (by decide),
   (confirmValidator_accepts_iff_equalFold asciiFold "owner/repo" "owner/rep0" "" "").2.1
      (by decide)⟩

/-- C5: for a selector that contains `"/"`, `deleteRun` never calls the
current-user lookup, the only string handed to the identity parser is the
selector itself, which is handed to it as soon as the client factory has
succeeded; and for the selector `"bob/proj"` the parser resolves the identity
`bob/proj`, which is the one deleted, with full name `"bob/proj"`. -/
theorem deleteRun_selector_with_separator (env : Env) (opts : DeleteOptions)
    (hsep : stringsContains opts.RepoArg "/" = true) :
    Event.CurrentLoginName ∉ (deleteRun env opts).trace ∧
    (∀ nwo, Event.FromFullName nwo ∈ (deleteRun env opts).trace → nwo = opts.RepoArg) ∧
    (∀ c, opts.HttpClient = Except.ok c →
      Event.FromFullName opts.RepoArg ∈ (deleteRun env opts).trace) ∧
    (opts.RepoArg = "bob/proj" →
      FromFullName opts.RepoArg = Except.ok (Repo.mk "bob" "proj") ∧
      FullName (Repo.mk "bob" "proj") = "bob/proj" ∧
      ∀ repo ret, Event.deleteRepo repo ret ∈ (deleteRun env opts).trace →
        repo = Repo.mk "bob" "proj") := by
  have hbob : FromFullName "bob/proj" = Except.ok (Repo.mk "bob" "proj") := rfl
  rcases deleteRun_paths env opts with ⟨e, hc, hr⟩ | ⟨c, e, _, hs, _, hr⟩ |
    ⟨c, pre, sel, hc, hres, hrest⟩
  · rw [hr]
    simp [hc]
    intro h
    rw [h]
    exact ⟨hbob, by decide⟩
  · rw [hsep] at hs; cases hs
  · rcases hres with ⟨_, hpre, hsel⟩ | ⟨hs, _⟩
    · subst hpre
      subst hsel
      rcases hrest with ⟨e, hp, hr⟩ | ⟨repo1, ask, ret, hp, hask, ⟨e1, _, hr⟩ | ⟨hnone, hr⟩⟩
      · rw [hr]
        simp
        intro h
        rw [h] at hp
        rw [hbob] at hp
        cases hp
      · rw [hr]
        rcases hask with ⟨_, hask, _⟩ | ⟨_, _, hask⟩ <;> subst hask <;> simp <;>
          intro h <;> rw [h] at hp ⊢ <;> exact ⟨hbob, by decide⟩
      · rw [hr]
        rcases hask with ⟨_, hask, _⟩ | ⟨_, _, hask⟩ <;> subst hask <;> simp <;>
          intro h <;> rw [h] at hp ⊢ <;> rw [hbob] at hp <;> cases hp <;>
          exact ⟨hbob, by decide, rfl⟩
    · rw [hsep] at hs; cases hs

/-- Witness of C5: the whole run for the selector `bob/proj`. -/
theorem deleteRun_selector_with_separator_witness :
    stringsContains (scriptedOpts "bob/proj" true true true).RepoArg "/" = true ∧
    Event.CurrentLoginName ∉
      (deleteRun (scriptedEnv (Except.ok "alice") "" none)
        (scriptedOpts "bob/proj" true true true)).trace ∧
    Event.FromFullName "bob/proj" ∈
      (deleteRun (scriptedEnv (Except.ok "alice") "" none)
        (scriptedOpts "bob/proj" true true true)).trace :=
  ⟨by decide,
   (deleteRun_selector_with_separator (scriptedEnv (Except.ok "alice") "" none)
      (scriptedOpts "bob/proj" true true true) (by decide)).1,
   (deleteRun_selector_with_separator (scriptedEnv (Except.ok "alice") "" none)
      (scriptedOpts "bob/proj" true true true) (by decide)).2.2.1 _ rfl⟩


/-- Counterexample to C6 as stated: for the selector `"myrepo"`, which has no
`"/"`, a run whose client factory fails makes no current-user lookup at all. -/
theorem deleteRun_no_lookup_without_client :
    stringsContains (noClientOpts "myrepo" false).RepoArg "/" = false ∧
    List.count Event.CurrentLoginName
      (deleteRun (scriptedEnv (Except.ok "alice") "alice/myrepo" none)
        (noClientOpts "myrepo" false)).trace = 0 ∧
    (deleteRun (scriptedEnv (Except.ok "alice") "alice/myrepo" none)
        (noClientOpts "myrepo" false)) =
      Outcome.mk (some (GoError.errorString "no client")) [Event.HttpClient] [] := by
  decide

/-- C6, amended: for a selector without `"/"`, once the client factory has
succeeded, `deleteRun` calls the current-user lookup exactly once, and when the
lookup returns the login `u` the string handed to the identity parser is
`u + "/" + selector` and no other; for the selector `"myrepo"` and the current
user `"alice"` the parser resolves `alice/myrepo`, whose full name is
`"alice/myrepo"`, and the prompt, issued when `opts.Confirmed` is false, has the
message `"Type alice/myrepo to confirm deletion:"`. -/
theorem deleteRun_selector_without_separator (env : Env) (opts : DeleteOptions)
    (c : HttpClient) (hc : opts.HttpClient = Except.ok c)
    (hsep : stringsContains opts.RepoArg "/" = false) :
    List.count Event.CurrentLoginName (deleteRun env opts).trace = 1 ∧
    (∀ u, env.CurrentLoginName c = Except.ok u →
      Event.FromFullName (u ++ "/" ++ opts.RepoArg) ∈ (deleteRun env opts).trace ∧
      ∀ nwo, Event.FromFullName nwo ∈ (deleteRun env opts).trace →
        nwo = u ++ "/" ++ opts.RepoArg) ∧
    (opts.RepoArg = "myrepo" → env.CurrentLoginName c = Except.ok "alice" →
      FromFullName ("alice" ++ "/" ++ opts.RepoArg) = Except.ok (Repo.mk "alice" "myrepo") ∧
      FullName (Repo.mk "alice" "myrepo") = "alice/myrepo" ∧
      (opts.Confirmed = false →
        ∃ ret, Event.SurveyAskOne "Type alice/myrepo to confirm deletion:" ret ∈
          (deleteRun env opts).trace) ∧
      ∀ msg ret, Event.SurveyAskOne msg ret ∈ (deleteRun env opts).trace →
        msg = "Type alice/myrepo to confirm deletion:") := by
  have halice : FromFullName "alice/myrepo" = Except.ok (Repo.mk "alice" "myrepo") := rfl
  have hmsg : promptMessage (FullName (Repo.mk "alice" "myrepo")) =
      "Type alice/myrepo to confirm deletion:" := by decide
  rcases deleteRun_paths env opts with ⟨e, hc1, _⟩ | ⟨c1, e, hc1, hs, hl, hr⟩ |
    ⟨c1, pre, sel, hc1, hres, hrest⟩
  · rw [hc] at hc1; cases hc1
  · rw [hc] at hc1; cases hc1
    rw [hr]
    simp [hl]
  · rw [hc] at hc1; cases hc1
    rcases hres with ⟨hs, _⟩ | ⟨_, u, hl, hpre, hsel⟩
    · rw [hsep] at hs; cases hs
    · subst hpre
      subst hsel
      rcases hrest with ⟨e, hp, hr⟩ | ⟨repo1, ask, ret, hp, hask, ⟨e1, _, hr⟩ | ⟨hnone, hr⟩⟩
      · rw [hr]
        simp [hl]
        intro h1 h2
        subst h2
        rw [h1] at hp
        rw [show ("alice" : String) ++ "/" ++ "myrepo" = "alice/myrepo" from by decide,
          halice] at hp
        cases hp
      · rw [hr]
        rcases hask with ⟨hcf, hask, _⟩ | ⟨hcf, _, hask⟩ <;> subst hask <;>
          simp [hl, hcf] <;> intro h1 h2 <;> subst h2 <;> rw [h1] at hp ⊢ <;>
          rw [show ("alice" : String) ++ "/" ++ "myrepo" = "alice/myrepo" from by decide,
            halice] at hp <;>
          cases hp <;> simp [halice, hmsg] <;> decide
      · rw [hr]
        rcases hask with ⟨hcf, hask, _⟩ | ⟨hcf, _, hask⟩ <;> subst hask <;>
          simp [hl, hcf] <;> intro h1 h2 <;> subst h2 <;> rw [h1] at hp ⊢ <;>
          rw [show ("alice" : String) ++ "/" ++ "myrepo" = "alice/myrepo" from by decide,
            halice] at hp <;>
          cases hp <;> simp [halice, hmsg] <;> decide

/-- Witness of C6, amended: selector `myrepo`, current user `alice`. -/
theorem deleteRun_selector_without_separator_witness :
    (scriptedOpts "myrepo" false true true).HttpClient = Except.ok (HttpClient.mk 0) ∧
    stringsContains (scriptedOpts "myrepo" false true true).RepoArg "/" = false ∧
    List.count Event.CurrentLoginName
      (deleteRun (scriptedEnv (Except.ok "alice") "alice/myrepo" none)
        (scriptedOpts "myrepo" false true true)).trace = 1 ∧
    Event.FromFullName "alice/myrepo" ∈
      (deleteRun (scriptedEnv (Except.ok "alice") "alice/myrepo" none)
        (scriptedOpts "myrepo" false true true)).trace ∧
    ∃ ret, Event.SurveyAskOne "Type alice/myrepo to confirm deletion:" ret ∈
      (deleteRun (scriptedEnv (Except.ok "alice") "alice/myrepo" none)
        (scriptedOpts "myrepo" false true true)).trace :=
  ⟨rfl, by decide,
   (deleteRun_selector_without_separator (scriptedEnv (Except.ok "alice") "alice/myrepo" none)
      (scriptedOpts "myrepo" false true true) (HttpClient.mk 0) rfl (by decide)).1,
   ((deleteRun_selector_without_separator (scriptedEnv (Except.ok "alice") "alice/myrepo" none)
      (scriptedOpts "myrepo" false true true) (HttpClient.mk 0) rfl (by decide)).2.1
      "alice" rfl).1,
   ((deleteRun_selector_without_separator (scriptedEnv (Except.ok "alice") "alice/myrepo" none)
      (scriptedOpts "myrepo" false true true) (HttpClient.mk 0) rfl (by decide)).2.2
      rfl rfl).2.2.1 rfl⟩


/-- The parser rejects a selector whose owner part or name part is empty. -/
theorem FromFullName_empty_part (owner name : String) (h : '/' ∉ owner.toList)
    (hempty : owner = "" ∨ name = "") :
    FromFullName (owner ++ "/" ++ name) =
      Except.error (invalidIdentifier (owner ++ "/" ++ name)) := by
  have h1 : (owner ++ "/" ++ name).toList = owner.toList ++ '/' :: name.toList := by
    simp [String.toList]
  unfold FromFullName
  rw [h1, cutSlash_append _ _ h]
  rcases hempty with h2 | h2 <;> subst h2 <;> simp [String.toList]

/-- A list that contains `'/'` is cut at it. -/
theorem cutSlash_of_mem (l : List Char) (h : '/' ∈ l) : ∃ o n, cutSlash l = some (o, n) := by
  induction l with
  | nil => simp at h
  | cons c cs ih =>
    by_cases hc : c = '/'
    · exact ⟨[], cs, by simp [cutSlash, hc]⟩
    · have hcs : '/' ∈ cs := by
        rcases List.mem_cons.mp h with h1 | h1
        · exact absurd h1.symm hc
        · exact h1
      obtain ⟨o, n, hon⟩ := ih hcs
      exact ⟨c :: o, n, by simp [cutSlash, hc, hon]⟩

/-- Counterexample to C9 as stated: for the selector `"/repo"`, whose owner
part is empty, a run whose client factory fails returns the error of the
factory, which is not an `"argument error: "` wrapping. -/
theorem deleteRun_no_argument_error_without_client :
    (noClientOpts "/repo" true).RepoArg = "" ++ "/" ++ "repo" ∧
    (deleteRun (scriptedEnv (Except.ok "alice") "" none) (noClientOpts "/repo" true)).err =
      some (GoError.errorString "no client") ∧
    ¬ ∃ cause,
      (deleteRun (scriptedEnv (Except.ok "alice") "" none) (noClientOpts "/repo" true)).err =
        some (GoError.wrapError ("argument error: " ++ cause.Error) cause) := by
  refine ⟨by decide, by decide, ?_⟩
  rintro ⟨cause, h⟩
  have h1 : (deleteRun (scriptedEnv (Except.ok "alice") "" none)
      (noClientOpts "/repo" true)).err = some (GoError.errorString "no client") := by decide
  rw [h1] at h
  cases h

/-- C9, amended: for a selector `owner/name` cut at its first `"/"` whose owner
part or name part is empty, once the client factory has succeeded, the parser
fails with some error `cause`, `deleteRun` returns the error wrapping `cause`
with the message `"argument error: <cause>"`, and neither the prompt nor the
remote delete call is issued. -/
theorem deleteRun_empty_part (env : Env) (opts : DeleteOptions) (c : HttpClient)
    (owner name : String) (hc : opts.HttpClient = Except.ok c)
    (hsel : opts.RepoArg = owner ++ "/" ++ name) (hfirst : '/' ∉ owner.toList)
    (hempty : owner = "" ∨ name = "") :
    ∃ cause, FromFullName opts.RepoArg = Except.error cause ∧
      (deleteRun env opts).err =
        some (GoError.wrapError ("argument error: " ++ cause.Error) cause) ∧
      (∀ msg ret, Event.SurveyAskOne msg ret ∉ (deleteRun env opts).trace) ∧
      (∀ repo ret, Event.deleteRepo repo ret ∉ (deleteRun env opts).trace) := by
  have hparse := FromFullName_empty_part owner name hfirst hempty
  rw [← hsel] at hparse
  have hsep : stringsContains opts.RepoArg "/" = true := by
    rw [stringsContains_slash, hsel]
    simp [String.toList]
  refine ⟨_, hparse, ?_⟩
  rcases deleteRun_paths env opts with ⟨e, hc1, _⟩ | ⟨c1, e, _, hs, _, _⟩ |
    ⟨c1, pre, sel, _, hres, hrest⟩
  · rw [hc] at hc1; cases hc1
  · rw [hsep] at hs; cases hs
  · rcases hres with ⟨_, hpre, hsel1⟩ | ⟨hs, _⟩
    · subst hpre
      subst hsel1
      rcases hrest with ⟨e, hp, hr⟩ | ⟨repo1, _, _, hp, _⟩
      · rw [hparse] at hp
        cases hp
        rw [hr]
        simp [ErrorfW]
      · rw [hparse] at hp
        cases hp
    · rw [hsep] at hs; cases hs

/-- Witness of C9, amended: the selector `owner/` has an empty name part. -/
theorem deleteRun_empty_part_witness :
    (scriptedOpts "owner/" false true true).RepoArg = "owner" ++ "/" ++ "" ∧
    '/' ∉ ("owner" : String).toList ∧
    ∃ cause, FromFullName (scriptedOpts "owner/" false true true).RepoArg = Except.error cause ∧
      (deleteRun (scriptedEnv (Except.ok "alice") "owner/" none)
          (scriptedOpts "owner/" false true true)).err =
        some (GoError.wrapError ("argument error: " ++ cause.Error) cause) ∧
      (∀ msg ret, Event.SurveyAskOne msg ret ∉
        (deleteRun (scriptedEnv (Except.ok "alice") "owner/" none)
          (scriptedOpts "owner/" false true true)).trace) ∧
      (∀ repo ret, Event.deleteRepo repo ret ∉
        (deleteRun (scriptedEnv (Except.ok "alice") "owner/" none)
          (scriptedOpts "owner/" false true true)).trace) :=
  ⟨by decide, by decide,
   deleteRun_empty_part (scriptedEnv (Except.ok "alice") "owner/" none)
     (scriptedOpts "owner/" false true true) (HttpClient.mk 0) "owner" "" rfl (by decide)
     (by decide) (Or.inr rfl)⟩

/-- Counterexample to C10 as stated: the selector `"a/b/c"` contains `"/"`, but
the parser does not resolve it to the owner `"a"` with the name `"b/c"`, a run
on it never asks to type `a/b/c`, and a confirmed run on a terminal does not
print the success line for `a/b/c`. -/
theorem FromFullName_three_parts_not_split :
    stringsContains "a/b/c" "/" = true ∧
    FromFullName "a/b/c" ≠ Except.ok (Repo.mk "a" "b/c") ∧
    (∀ ret, Event.SurveyAskOne (promptMessage "a/b/c") ret ∉
      (deleteRun (scriptedEnv (Except.ok "alice") "a/b/c" none)
        (scriptedOpts "a/b/c" false true true)).trace) ∧
    successLine "✓" "a/b/c" ∉
      (deleteRun (scriptedEnv (Except.ok "alice") "" none)
        (scriptedOpts "a/b/c" true true true)).out := by
  have hparse : FromFullName "a/b/c" = Except.error (invalidIdentifier "a/b/c") := rfl
  have htrace : (deleteRun (scriptedEnv (Except.ok "alice") "a/b/c" none)
      (scriptedOpts "a/b/c" false true true)).trace =
        [Event.HttpClient, Event.FromFullName "a/b/c"] := by decide
  refine ⟨by decide, ?_, ?_, by decide⟩
  · intro h
    rw [hparse] at h
    cases h
  · intro ret
    rw [htrace]
    simp

/-- C10, amended: a selector `owner/name` with exactly one `"/"` and both parts
non-empty is resolved by the parser to the identity with the text before the
`"/"` as owner and the text after it as name, whose full name is the selector
itself.  A run of `deleteRun` on it with a client parses the selector, asks
(unless confirmed) with the prompt message for the selector, makes the delete
call for that identity, and on success on a terminal writes the success line
for the selector.  Every selector with exactly one `"/"` has this form, and
the full name of every identity the parser returns is the string it was
given. -/
theorem FromFullName_splits_at_separator (env : Env) (opts : DeleteOptions)
    (owner name : String) (hfirst : '/' ∉ owner.toList) (hrest : '/' ∉ name.toList)
    (ho : owner ≠ "") (hn : name ≠ "") :
    FromFullName (owner ++ "/" ++ name) = Except.ok (Repo.mk owner name) ∧
    FullName (Repo.mk owner name) = owner ++ "/" ++ name ∧
    (∀ c, opts.HttpClient = Except.ok c → opts.RepoArg = owner ++ "/" ++ name →
      (opts.Confirmed = true →
        deleteRun env opts =
          Outcome.mk (env.deleteRepo c (Repo.mk owner name))
            [Event.HttpClient, Event.FromFullName (owner ++ "/" ++ name),
              Event.deleteRepo (Repo.mk owner name) (env.deleteRepo c (Repo.mk owner name))]
            (if env.deleteRepo c (Repo.mk owner name) = none ∧
                opts.Streams.IsStdoutTTY = true then
              [successLine opts.Streams.SuccessIcon (owner ++ "/" ++ name)]
             else [])) ∧
      (opts.Confirmed = false →
        ∀ e, env.SurveyAskOne (promptMessage (owner ++ "/" ++ name))
            (confirmValidator env.foldOrbit (owner ++ "/" ++ name)) = some e →
          deleteRun env opts =
            Outcome.mk (some (ErrorfW "could not prompt: " e))
              [Event.HttpClient, Event.FromFullName (owner ++ "/" ++ name),
                Event.SurveyAskOne (promptMessage (owner ++ "/" ++ name)) (some e)]
              []) ∧
      (opts.Confirmed = false →
        env.SurveyAskOne (promptMessage (owner ++ "/" ++ name))
            (confirmValidator env.foldOrbit (owner ++ "/" ++ name)) = none →
          deleteRun env opts =
            Outcome.mk (env.deleteRepo c (Repo.mk owner name))
              [Event.HttpClient, Event.FromFullName (owner ++ "/" ++ name),
                Event.SurveyAskOne (promptMessage (owner ++ "/" ++ name)) none,
                Event.deleteRepo (Repo.mk owner name)
                  (env.deleteRepo c (Repo.mk owner name))]
              (if env.deleteRepo c (Repo.mk owner name) = none ∧
                  opts.Streams.IsStdoutTTY = true then
                [successLine opts.Streams.SuccessIcon (owner ++ "/" ++ name)]
               else []))) ∧
    (∀ S : String, S.toList.count '/' = 1 →
      ∃ o n : String, S = o ++ "/" ++ n ∧ '/' ∉ o.toList ∧ '/' ∉ n.toList) ∧
    (∀ S repo, FromFullName S = Except.ok repo → FullName repo = S) := by
  have hparse := FromFullName_append owner name hfirst hrest ho hn
  have hfull : FullName (Repo.mk owner name) = owner ++ "/" ++ name := rfl
  refine ⟨hparse, hfull, ?_, ?_, FullName_of_FromFullName⟩
  · intro c hc hsel
    have hsep : stringsContains opts.RepoArg "/" = true := by
      rw [stringsContains_slash, hsel]
      simp [String.toList]
    have hres : Resolved env opts c [Event.HttpClient] (owner ++ "/" ++ name) :=
      Or.inl ⟨hsep, rfl, hsel.symm⟩
    refine ⟨?_, ?_, ?_⟩
    · intro hconf
      have h := deleteRun_of_delete_reached env opts c _ _ _ [] hc hres hparse
        (Or.inl ⟨hconf, rfl, rfl⟩)
      rw [h, hfull]
      simp
    · intro hconf e he
      have hsep1 := hsep
      rw [hsel] at hsep1
      simp [deleteRun, hc, hsep1, hsel, hparse, hconf, hfull, he]
    · intro hconf hnone
      have h := deleteRun_of_delete_reached env opts c _ _ _
        [Event.SurveyAskOne (promptMessage (FullName (Repo.mk owner name))) none] hc hres hparse
        (Or.inr ⟨hconf, by rw [hfull, hnone], rfl⟩)
      rw [h, hfull]
      simp
  · intro S hS
    have hmem : '/' ∈ S.toList := by
      apply List.count_pos_iff.mp
      omega
    obtain ⟨o, n, hon⟩ := cutSlash_of_mem _ hmem
    obtain ⟨h1, h2⟩ := cutSlash_some _ _ _ hon
    have hn0 : '/' ∉ n := by
      rw [h1] at hS
      have ho0 : List.count '/' o = 0 := List.count_eq_zero.mpr h2
      simp [List.count_cons, ho0] at hS
      exact List.count_eq_zero.mp hS
    refine ⟨String.mk o, String.mk n, ?_, h2, hn0⟩
    apply String.ext
    simp only [String.toList] at h1
    simp [h1]

/-- Witness of C10, amended: the selector `bob/proj`, confirmed at the prompt
and deleted, is reported as `bob/proj`. -/
theorem FromFullName_splits_at_separator_witness :
    '/' ∉ ("bob" : String).toList ∧ '/' ∉ ("proj" : String).toList ∧
    ("bob" : String) ≠ "" ∧ ("proj" : String) ≠ "" ∧
    FromFullName "bob/proj" = Except.ok (Repo.mk "bob" "proj") ∧
    deleteRun (scriptedEnv (Except.ok "alice") "Bob/Proj" none)
        (scriptedOpts "bob/proj" false true true) =
      Outcome.mk none
        [Event.HttpClient, Event.FromFullName "bob/proj",
          Event.SurveyAskOne "Type bob/proj to confirm deletion:" none,
          Event.deleteRepo (Repo.mk "bob" "proj") none]
        ["✓ Deleted repository bob/proj\n"] :=
  ⟨by decide, by decide, by decide, by decide,
   (FromFullName_splits_at_separator (scriptedEnv (Except.ok "alice") "Bob/Proj" none)
      (scriptedOpts "bob/proj" false true true) "bob" "proj" (by decide) (by decide)
      (by decide) (by decide)).1,
   ((FromFullName_splits_at_separator (scriptedEnv (Except.ok "alice") "Bob/Proj" none)
      (scriptedOpts "bob/proj" false true true) "bob" "proj" (by decide) (by decide)
      (by decide) (by decide)).2.2.1 (HttpClient.mk 0) rfl rfl).2.2 rfl rfl⟩


end Delete
